import Mathlib

/-!
Verification of the Projekt-Gutenberg downloader (`main.go`).

The development shallowly embeds the program's core logic:

* `getBaseUrl` — URL normalisation (main.go, `getBaseUrl`).  The call to the
  standard library's `url.Parse` is an external collaborator; its outcome
  (either a parse-error message or a record with the scheme, host, path,
  raw-query and fragment fields that `url.Parse` produces) is taken as the
  input of the embedded function.
* `getChapters` — chapter-link extraction from the index page
  (main.go, `getChapters`).  The goquery selection `body ul li` is taken as
  input: the list of matched list-item elements in document order; the
  descendant search `Find("a[href]")` together with `Attr` (first match in
  document order) is embedded as `findAHrefList`.
* `parseAdditionalPage` — region isolation between the two `<hr>` markers and
  HTML→Markdown conversion (main.go, `parseAdditionalPage` and the nested
  `process` closure).  The goquery call `doc.Find("body").Children()` yields
  the element children of the body in document order, so the embedded
  function takes the body's child list and first restricts it to element
  nodes (`elementChildren`).
* `fetchAndProcessChapter` — appending one chapter's output and the
  title-page separator (main.go, `FetchAndProcessChapter`); the HTTP fetch
  and HTML parsing collaborators are external, so the embedded function takes
  the already-parsed body children and threads the output buffer explicitly
  (`fmt.Fprint`/`fmt.Fprintln` on the `bytes.Buffer` become string append;
  `fmt.Fprintln` appends a final newline to what it prints).

Go strings are iterated rune-wise in all the relevant loops
(`for _, c := range ret`, `[]rune(ret)`), which matches Lean's
`List Char` view of `String`.
-/

/-- The sentinel errors of main.go (`ErrInvalidURL`, `ErrNoChaptersFound`,
`ErrParsingPage`, `ErrBookNotFound`), the `panic` on a chapter list item
without a link, and `other` for propagated errors of collaborators (such as
the error returned by `url.Parse`, which `getBaseUrl` returns verbatim). -/
inductive GoError where
  | invalidURL
  | noChaptersFound
  | parsingPage
  | bookNotFound
  | missingChapterLink
  | other (msg : String)
deriving DecidableEq, Repr

/-- The fields of Go's `url.URL` that `getBaseUrl` can observe: `Scheme`,
`Host`, `Path`, plus the query and fragment components, which `url.Parse`
stores separately from `Path` (and which `getBaseUrl` never reads). -/
structure GoURL where
  scheme : String
  host : String
  path : String
  rawQuery : String
  fragment : String
deriving DecidableEq, Repr

/-- Go `strings.Split(s, sep)` for a one-character separator:
splits around every occurrence; `Split("", sep) = [""]`. -/
def splitChar (sep : Char) : List Char → List (List Char)
  | [] => [[]]
  | c :: rest =>
    if c = sep then [] :: splitChar sep rest
    else
      match splitChar sep rest with
      | [] => [[c]]
      | s :: ss => (c :: s) :: ss

/-- Go `strings.Trim(s, "/")`: remove all leading and trailing `/`. -/
def trimC (l : List Char) : List Char :=
  ((l.dropWhile (fun c => c = '/')).reverse.dropWhile (fun c => c = '/')).reverse

/-- Go `strings.Join(segs, "/")`. -/
def joinSlash (segs : List (List Char)) : List Char :=
  (List.intersperse ['/'] segs).flatten

/-- main.go `getBaseUrl`: validate scheme and host, split the path on `/`
after trimming outer slashes, require at least two segments, and rebuild
`<scheme>://projekt-gutenberg.org/<seg0>/<seg1>`.  A failure of `url.Parse`
is returned verbatim (`return "", err`), not as `ErrInvalidURL`. -/
def getBaseUrl (parsed : Except String GoURL) : Except GoError String :=
  match parsed with
  | .error msg => .error (.other msg)
  | .ok u =>
    if !(u.scheme == "http" || u.scheme == "https") then
      .error .invalidURL
    else if !(u.host == "projekt-gutenberg.org" || u.host == "www.projekt-gutenberg.org") then
      .error .invalidURL
    else
      let spPath := splitChar '/' (trimC u.path.data)
      if spPath.length < 2 then
        .error .invalidURL
      else
        .ok (u.scheme ++ "://projekt-gutenberg.org/" ++ String.mk (joinSlash (spPath.take 2)))

/-- HTML tag identities distinguished by `process` (the `atom.*` cases of its
`switch`), plus the tags the marker/navigation/index logic inspects (`hr`,
`ul`, `li`, `a`) and a catch-all for every other element name (which falls
into the `default` branch: a console warning and empty output). -/
inductive Tag where
  | br | h1 | h2 | h3 | h4 | h5 | h6 | p | div | tt | i | a | span | img
  | hr | ul | li
  | other (name : String)
deriving DecidableEq, Repr

/-- A node of the parsed HTML tree (`x/net/html` node): a text node with its
raw data, an element node with tag, attribute list (key-value pairs, in
document order) and children, or any other node kind (comment, doctype, …),
which `process` handles in its `default` branch with empty output. -/
inductive HNode where
  | text (data : String)
  | elem (tag : Tag) (attrs : List (String × String)) (children : List HNode)
  | onode (kind : String)

/-- The children of a node (empty for non-elements). -/
def childrenOf : HNode → List HNode
  | .elem _ _ cs => cs
  | _ => []

/-- Whether a node is an element node; goquery selections such as
`Children()` contain element nodes only. -/
def isElem : HNode → Bool
  | .elem _ _ _ => true
  | _ => false

/-- The goquery call `doc.Find("body").Children()`: the element children, in order. -/
def elementChildren (cs : List HNode) : List HNode :=
  cs.filter isElem

/-- First attribute value for a key (goquery `Attr` on a single element;
also how attribute selectors read an attribute). -/
def getAttr (attrs : List (String × String)) (key : String) : Option String :=
  match attrs.find? (fun kv => kv.1 == key) with
  | some kv => some kv.2
  | none => none

/-- main.go `hasClass` (inside `process`): find the first `class` attribute,
split its value on single spaces, and compare each piece to the wanted
class; later `class` attributes are never consulted
(the loop returns `false` right after scanning the first one). -/
def hasClass (attrs : List (String × String)) (cls : String) : Bool :=
  match getAttr attrs "class" with
  | some v => (splitChar ' ' v.data).any (fun piece => piece = cls.data)
  | none => false

/-- The space-collapsing loop of the `html.TextNode` case of `process`:
`prevWasSpace` starts false; a space following a space is skipped. -/
def collapseGo : List Char → Bool → List Char
  | [], _ => []
  | c :: rest, prev =>
    if c = ' ' then
      if prev then collapseGo rest true
      else c :: collapseGo rest true
    else c :: collapseGo rest false

/-- The `html.TextNode` case of `process`:
`strings.ReplaceAll(data, "\n", "")` followed by the space-collapsing loop. -/
def textTransform (s : String) : String :=
  String.mk (collapseGo (s.data.filter (fun c => !(c == '\n'))) false)

/-- The "spaced" CSS-effect loop of `process`: emit each rune of the
already-formatted output, followed by one space unless it is the last. -/
def spaceGo : List Char → List Char
  | [] => []
  | [c] => [c]
  | c :: rest => c :: ' ' :: spaceGo rest

/-- String form of the "spaced" effect. -/
def spaceOut (s : String) : String :=
  String.mk (spaceGo s.data)

/-- The tag `switch` of the `html.ElementNode` case of `process`, given the
already-converted children (`processChildren`).  Unknown atoms (`hr`, `ul`,
`li`, anything else) take the `default` branch: a console warning and the
zero value `""`. -/
def tagTransform (tag : Tag) (attrs : List (String × String)) (inner : String) : String :=
  match tag with
  | .br => "\n\n"
  | .h1 => "# " ++ inner ++ "\n"
  | .h2 => "## " ++ inner ++ "\n"
  | .h3 => "### " ++ inner ++ "\n"
  | .h4 => "#### " ++ inner ++ "\n"
  | .h5 => "##### " ++ inner ++ "\n"
  | .h6 => "###### " ++ inner ++ "\n"
  | .p => if hasClass attrs "centerbig" then "#### " ++ inner ++ "\n\n" else inner ++ "\n\n"
  | .div => inner
  | .tt => "`" ++ inner ++ "`"
  | .i => "_" ++ inner ++ "_"
  | .a => inner
  | .span => inner
  | .img => ""
  | _ => ""

mutual
/-- main.go `process` (the recursive closure in `parseAdditionalPage`):
text nodes via `textTransform`, element nodes via the tag `switch` followed
by the post-transform "spaced" effect when the element carries that class,
any other node kind yields empty output (with a console warning). -/
def process : HNode → String
  | .text data => textTransform data
  | .elem tag attrs children =>
    let ret := tagTransform tag attrs (processList children)
    if hasClass attrs "spaced" then spaceOut ret else ret
  | .onode _ => ""

/-- The `processChildren` closure: concatenate the conversions of a node list in order. -/
def processList : List HNode → String
  | [] => ""
  | n :: rest => process n ++ processList rest
end

mutual
/-- goquery `Selection.Text()`: the concatenation of the data of every text
node in the subtree, in document order. -/
def textContent : HNode → String
  | .text s => s
  | .elem _ _ cs => textContentList cs
  | .onode _ => ""

def textContentList : List HNode → String
  | [] => ""
  | n :: rest => textContent n ++ textContentList rest
end

/-- The marker test `s.Is("hr[size=\"1\"][color=\"#808080\"]")`. -/
def isMarker : HNode → Bool
  | .elem .hr attrs _ =>
    getAttr attrs "size" == some "1" && getAttr attrs "color" == some "#808080"
  | _ => false

/-- The navigation-link test: `s.Is("a")` with text exactly
`"<<\u00A0zurück"` or `"weiter\u00A0>>"` (U+00A0 no-break space). -/
def isNavLink (n : HNode) : Bool :=
  match n with
  | .elem .a _ _ =>
    textContent n == "<<\u00A0zurück" || textContent n == "weiter\u00A0>>"
  | _ => false

/-- The state of the `FilterFunction` closure of `parseAdditionalPage`:
the `passedHrs` counter, whether `err` has been set (it is only ever set to
`ErrParsingPage`), and the children retained so far, in order. -/
structure FilterState where
  passedHrs : Nat
  err : Bool
  acc : List HNode

/-- One evaluation of the `FilterFunction` predicate: markers bump
`passedHrs` and are dropped; navigation links are dropped; otherwise the
child is kept exactly in region 1 (`passedHrs == 1`), dropped in regions 0
and 2, and sets `err = ErrParsingPage` (and is dropped) from region 3 on. -/
def filterStep (st : FilterState) (n : HNode) : FilterState :=
  if isMarker n then
    { st with passedHrs := st.passedHrs + 1 }
  else if isNavLink n then
    st
  else
    match st.passedHrs with
    | 0 => st
    | 1 => { st with acc := st.acc ++ [n] }
    | 2 => st
    | _ => { st with err := true }

/-- Run the filter over a child list from the initial state. -/
def runFilter (cs : List HNode) : FilterState :=
  cs.foldl filterStep { passedHrs := 0, err := false, acc := [] }

/-- main.go `parseAdditionalPage`, as a function from the body's child list
to either `ErrParsingPage` or the chapter's Markdown: run the filter over
the element children, fail if `err` was set, otherwise concatenate
`process` over the retained nodes (the `fmt.Fprint` loop). -/
def parseAdditionalPage (bodyChildren : List HNode) : Except GoError String :=
  let st := runFilter (elementChildren bodyChildren)
  if st.err then .error .parsingPage
  else .ok (processList st.acc)

/-- main.go `parseAdditionalPage` with the output buffer made explicit:
returns the new buffer contents and the error, mirroring that the
`if err != nil return err` check precedes the `fmt.Fprint` write loop. -/
def parseAdditionalPageW (buf : String) (bodyChildren : List HNode) :
    String × Option GoError :=
  let st := runFilter (elementChildren bodyChildren)
  if st.err then (buf, some .parsingPage)
  else (buf ++ processList st.acc, none)

/-- The `a[href]` test on one element: an `a` element carrying an `href`
attribute; yields the attribute value. -/
def aHref (tag : Tag) (attrs : List (String × String)) : Option String :=
  if tag = .a then getAttr attrs "href" else none

mutual
/-- First `a[href]` in the subtree rooted at a node (the node included),
in document order — pre-order traversal. -/
def findAHrefIn : HNode → Option String
  | .text _ => none
  | .onode _ => none
  | .elem tag attrs cs =>
    match aHref tag attrs with
    | some h => some h
    | none => findAHrefList cs

/-- First `a[href]` over a forest, in document order.  Applied to the
children of a list item this is `s.Find("a[href]")` followed by `Attr`
(both goquery calls consider descendants in document order, the root
excluded from `Find`). -/
def findAHrefList : List HNode → Option String
  | [] => none
  | n :: rest =>
    match findAHrefIn n with
    | some h => some h
    | none => findAHrefList rest
end

/-- The `Each` loop of main.go `getChapters` over the `body ul li`
selection: for every list item find a descendant `a[href]` (its absence is
a `panic`), and collect `baseUrl + "/" + href` in document order. -/
def chapterLoop (baseUrl : String) : List HNode → Except GoError (List String)
  | [] => .ok []
  | li :: rest =>
    match findAHrefList (childrenOf li) with
    | none => .error .missingChapterLink
    | some relUrl =>
      match chapterLoop baseUrl rest with
      | .error e => .error e
      | .ok urls => .ok ((baseUrl ++ "/" ++ relUrl) :: urls)

/-- main.go `getChapters`, taking the `body ul li` selection (the matched
list items in document order) as input: collect the chapter URLs and fail
with `ErrNoChaptersFound` when none were found. -/
def getChapters (baseUrl : String) (lis : List HNode) : Except GoError (List String) :=
  match chapterLoop baseUrl lis with
  | .error e => .error e
  | .ok urls => if urls = [] then .error .noChaptersFound else .ok urls

/-- Go `path.Base`: `"."` for the empty string; otherwise strip trailing
slashes, then keep everything after the last remaining slash; `"/"` if
nothing remains. -/
def pathBase (s : String) : String :=
  if s = "" then "."
  else
    let base := (s.data.reverse.dropWhile (fun c => c = '/')).takeWhile (fun c => !(c == '/'))
    if base = [] then "/" else String.mk base.reverse

/-- main.go `FetchAndProcessChapter` after fetching and parsing (both
external): run `parseAdditionalPage` against the explicit buffer, and, when
the chapter URL's `path.Base` is `titlepage.html`, additionally run
`fmt.Fprintln(e.W, "\n----------------\n")` — which writes its argument
followed by a newline. -/
def fetchAndProcessChapter (buf : String) (chapterUrl : String)
    (bodyChildren : List HNode) : Except GoError String :=
  match parseAdditionalPageW buf bodyChildren with
  | (_, some e) => .error e
  | (buf', none) =>
    if pathBase chapterUrl = "titlepage.html" then
      .ok (buf' ++ "\n----------------\n" ++ "\n")
    else
      .ok buf'

/-- A retainable content child: neither a marker nor a navigation link
(the children on which the filter's `switch` on `passedHrs` runs). -/
def isContent (n : HNode) : Bool :=
  !(isMarker n) && !(isNavLink n)

/-- The suffix of a child list strictly after its first marker
(everything when-and-after the first marker, the marker removed;
empty when there is no marker). -/
def dropAfterMarker (cs : List HNode) : List HNode :=
  (cs.dropWhile (fun c => !(isMarker c))).drop 1

/-- Modelled from the spec's description of region isolation: the children
strictly between the first and the second marker, navigation links removed
("A child is retained only while exactly one such marker has been seen"). -/
def betweenSpec (cs : List HNode) : List HNode :=
  ((dropAfterMarker cs).takeWhile (fun c => !(isMarker c))).filter
    (fun c => !(isNavLink c))

/-- Whether a child list contains any retainable content child. -/
def badIn (cs : List HNode) : Bool :=
  cs.any isContent

/-- The condition under which the filter sets `err = ErrParsingPage`:
some content child (neither marker nor navigation link) occurs strictly
after the third marker. -/
def errSpec (cs : List HNode) : Bool :=
  badIn (dropAfterMarker (dropAfterMarker (dropAfterMarker cs)))

/-- No two consecutive spaces anywhere in the character list ("no run of
two or more space characters"). -/
def noRun : List Char → Bool
  | [] => true
  | [_] => true
  | a :: b :: rest => !(a == ' ' && b == ' ') && noRun (b :: rest)

/-- Whether a character list starts with a space. -/
def headIsSpace : List Char → Bool
  | [] => false
  | c :: _ => c == ' '

/-! ## Example nodes used by concrete instances -/

/-- A marker element: `<hr size="1" color="#808080">`. -/
def exMarker : HNode := .elem .hr [("size", "1"), ("color", "#808080")] []

/-- A plain content paragraph. -/
def exPara : HNode := .elem .p [] [.text "Hello"]

/-- A "weiter >>" navigation link (no-break space before `>>`). -/
def exNav : HNode := .elem .a [("href", "kapitel2.html")] [.text "weiter >>"]

/-! ## Characterisation of the region filter -/

theorem filterStep_marker (st : FilterState) (n : HNode) (h : isMarker n = true) :
    filterStep st n = { st with passedHrs := st.passedHrs + 1 } := by
  simp [filterStep, h]

theorem filterStep_nav (st : FilterState) (n : HNode) (hm : isMarker n = false)
    (hn : isNavLink n = true) : filterStep st n = st := by
  simp [filterStep, hm, hn]

theorem isContent_marker {n : HNode} (h : isMarker n = true) : isContent n = false := by
  simp [isContent, h]

theorem isContent_nav {n : HNode} (h : isNavLink n = true) : isContent n = false := by
  simp [isContent, h]

theorem isContent_other {n : HNode} (hm : isMarker n = false) (hn : isNavLink n = false) :
    isContent n = true := by
  simp [isContent, hm, hn]

theorem badIn_cons (c : HNode) (cs : List HNode) :
    badIn (c :: cs) = (isContent c || badIn cs) := by
  simp [badIn]

theorem dropAfterMarker_cons_marker {c : HNode} (cs : List HNode) (h : isMarker c = true) :
    dropAfterMarker (c :: cs) = cs := by
  simp [dropAfterMarker, List.dropWhile_cons, h]

theorem dropAfterMarker_cons_other {c : HNode} (cs : List HNode) (h : isMarker c = false) :
    dropAfterMarker (c :: cs) = dropAfterMarker cs := by
  simp [dropAfterMarker, List.dropWhile_cons, h]

/-- From three or more passed markers on, the filter only ever sets `err`
(on any content child) and retains nothing further. -/
theorem foldl_filterStep_ge3 (cs : List HNode) (p : Nat) (e : Bool) (acc : List HNode) :
    (cs.foldl filterStep ⟨p + 3, e, acc⟩).acc = acc ∧
    (cs.foldl filterStep ⟨p + 3, e, acc⟩).err = (e || badIn cs) := by
  induction cs generalizing p e with
  | nil => simp [badIn]
  | cons c cs ih =>
    rw [List.foldl_cons, badIn_cons]
    by_cases hm : isMarker c = true
    · rw [filterStep_marker _ _ hm]
      have := ih (p + 1) e
      simp only [isContent_marker hm, Bool.false_or]
      exact this
    · rw [Bool.not_eq_true] at hm
      by_cases hn : isNavLink c = true
      · rw [filterStep_nav _ _ hm hn]
        simp only [isContent_nav hn, Bool.false_or]
        exact ih p e
      · rw [Bool.not_eq_true] at hn
        have hstep : filterStep ⟨p + 3, e, acc⟩ c = ⟨p + 3, true, acc⟩ := by
          simp [filterStep, hm, hn]
        rw [hstep]
        have := ih p true
        simp only [isContent_other hm hn, Bool.true_or, Bool.or_true]
        exact ⟨this.1, by rw [this.2]; simp⟩

/-- After the second marker, nothing further is retained, and `err` is set
exactly when a content child follows a third marker. -/
theorem foldl_filterStep_two (cs : List HNode) (e : Bool) (acc : List HNode) :
    (cs.foldl filterStep ⟨2, e, acc⟩).acc = acc ∧
    (cs.foldl filterStep ⟨2, e, acc⟩).err = (e || badIn (dropAfterMarker cs)) := by
  induction cs generalizing e with
  | nil => simp [dropAfterMarker, badIn]
  | cons c cs ih =>
    rw [List.foldl_cons]
    by_cases hm : isMarker c = true
    · rw [filterStep_marker _ _ hm, dropAfterMarker_cons_marker _ hm]
      exact foldl_filterStep_ge3 cs 0 e acc
    · rw [Bool.not_eq_true] at hm
      rw [dropAfterMarker_cons_other _ hm]
      by_cases hn : isNavLink c = true
      · rw [filterStep_nav _ _ hm hn]
        exact ih e
      · rw [Bool.not_eq_true] at hn
        have hstep : filterStep ⟨2, e, acc⟩ c = ⟨2, e, acc⟩ := by
          simp [filterStep, hm, hn]
        rw [hstep]
        exact ih e

/-- In region 1 the filter retains exactly the content children up to the
next marker; `err` is set exactly when a content child follows the second
further marker (the third overall). -/
theorem foldl_filterStep_one (cs : List HNode) (e : Bool) (acc : List HNode) :
    (cs.foldl filterStep ⟨1, e, acc⟩).acc =
      acc ++ (cs.takeWhile (fun c => !(isMarker c))).filter (fun c => !(isNavLink c)) ∧
    (cs.foldl filterStep ⟨1, e, acc⟩).err =
      (e || badIn (dropAfterMarker (dropAfterMarker cs))) := by
  induction cs generalizing e acc with
  | nil => simp [dropAfterMarker, badIn]
  | cons c cs ih =>
    rw [List.foldl_cons]
    by_cases hm : isMarker c = true
    · have ht : (c :: cs).takeWhile (fun c => !(isMarker c)) = [] := by
        simp [List.takeWhile_cons, hm]
      rw [filterStep_marker _ _ hm, dropAfterMarker_cons_marker _ hm, ht]
      have h2 := foldl_filterStep_two cs e acc
      simpa using h2
    · rw [Bool.not_eq_true] at hm
      have ht : (c :: cs).takeWhile (fun c => !(isMarker c)) =
          c :: cs.takeWhile (fun c => !(isMarker c)) := by
        simp [List.takeWhile_cons, hm]
      rw [dropAfterMarker_cons_other _ hm, ht]
      by_cases hn : isNavLink c = true
      · have hf : (c :: cs.takeWhile (fun c => !(isMarker c))).filter
            (fun c => !(isNavLink c)) =
            (cs.takeWhile (fun c => !(isMarker c))).filter (fun c => !(isNavLink c)) := by
          simp [List.filter_cons, hn]
        rw [filterStep_nav _ _ hm hn, hf]
        exact ih e acc
      · rw [Bool.not_eq_true] at hn
        have hf : (c :: cs.takeWhile (fun c => !(isMarker c))).filter
            (fun c => !(isNavLink c)) =
            c :: (cs.takeWhile (fun c => !(isMarker c))).filter (fun c => !(isNavLink c)) := by
          simp [List.filter_cons, hn]
        have hstep : filterStep ⟨1, e, acc⟩ c = ⟨1, e, acc ++ [c]⟩ := by
          simp [filterStep, hm, hn]
        rw [hstep, hf]
        have := ih e (acc ++ [c])
        refine ⟨?_, this.2⟩
        rw [this.1]
        simp

/-- Before the first marker nothing is retained; overall, the retained
children are exactly those strictly between the first and second marker
(navigation links removed), and `err` is set exactly when a content child
occurs strictly after the third marker. -/
theorem foldl_filterStep_zero (cs : List HNode) (e : Bool) (acc : List HNode) :
    (cs.foldl filterStep ⟨0, e, acc⟩).acc = acc ++ betweenSpec cs ∧
    (cs.foldl filterStep ⟨0, e, acc⟩).err = (e || errSpec cs) := by
  induction cs generalizing e acc with
  | nil => simp [betweenSpec, dropAfterMarker, errSpec, badIn]
  | cons c cs ih =>
    rw [List.foldl_cons]
    by_cases hm : isMarker c = true
    · rw [filterStep_marker _ _ hm]
      have h1 := foldl_filterStep_one cs e acc
      rw [betweenSpec, errSpec, dropAfterMarker_cons_marker _ hm]
      exact h1
    · rw [Bool.not_eq_true] at hm
      have hspec : betweenSpec (c :: cs) = betweenSpec cs := by
        rw [betweenSpec, betweenSpec, dropAfterMarker_cons_other _ hm]
      have herr : errSpec (c :: cs) = errSpec cs := by
        rw [errSpec, errSpec, dropAfterMarker_cons_other _ hm]
      rw [hspec, herr]
      by_cases hn : isNavLink c = true
      · rw [filterStep_nav _ _ hm hn]
        exact ih e acc
      · rw [Bool.not_eq_true] at hn
        have hstep : filterStep ⟨0, e, acc⟩ c = ⟨0, e, acc⟩ := by
          simp [filterStep, hm, hn]
        rw [hstep]
        exact ih e acc

/-- The retained children of the region filter are exactly the content
children strictly between the first and second marker. -/
theorem runFilter_acc (cs : List HNode) : (runFilter cs).acc = betweenSpec cs := by
  have := foldl_filterStep_zero cs false []
  simpa [runFilter] using this.1

/-- The region filter sets `err` exactly when a content child occurs
strictly after the third marker. -/
theorem runFilter_err (cs : List HNode) : (runFilter cs).err = errSpec cs := by
  have := foldl_filterStep_zero cs false []
  simpa [runFilter] using this.2

/-- C1 (amended): the Content Extractor retains exactly the content children
strictly between the first and second marker element (navigation links
excluded), and fails with `ParsingPage` exactly when some non-marker,
non-navigation-link element child of the body occurs strictly after the
third marker; the concatenated Markdown of the retained children is
returned otherwise. -/
theorem parseAdditionalPage_characterization (cs : List HNode) :
    parseAdditionalPage cs =
      if errSpec (elementChildren cs) then .error .parsingPage
      else .ok (processList (betweenSpec (elementChildren cs))) := by
  show (if (runFilter (elementChildren cs)).err then
      (.error .parsingPage : Except GoError String)
    else .ok (processList (runFilter (elementChildren cs)).acc)) = _
  rw [runFilter_err, runFilter_acc]

/-- C1 counterexample: a chapter body whose element children contain three
marker elements, the third being last, is extracted successfully — the
claim that three or more markers always fail with `ParsingPage` is false. -/
theorem parseAdditionalPage_threeMarkers_ok :
    (elementChildren [exMarker, exPara, exMarker, exMarker]).countP isMarker = 3 ∧
    parseAdditionalPage [exMarker, exPara, exMarker, exMarker] = .ok "Hello\n\n" :=
  ⟨by decide, rfl⟩

/-- C5: a link element whose exact text is one of the two navigation labels
is never among the retained children of the region filter, at whatever
position in the body's child list it occurs — in particular also when it
lies between the first and second marker, so its text is absent from the
Markdown that `parseAdditionalPage` assembles from the retained children:
on the concrete page whose region holds a paragraph and the "weiter >>"
link, the returned Markdown is the paragraph's text alone. -/
theorem navLink_never_retained :
    (∀ (cs : List HNode) (n : HNode), isNavLink n = true → n ∉ (runFilter cs).acc) ∧
    parseAdditionalPage [exMarker, exPara, exNav, exMarker] = .ok "Hello\n\n" := by
  refine ⟨fun cs n h => ?_, rfl⟩
  rw [runFilter_acc]
  intro hmem
  have := (List.mem_filter.mp hmem).2
  simp [h] at this

/-- C5 witness: the concrete "weiter >>" link placed between the two
markers is not retained. -/
theorem navLink_never_retained_witness :
    exNav ∉ (runFilter [exMarker, exPara, exNav, exMarker]).acc :=
  navLink_never_retained.1 [exMarker, exPara, exNav, exMarker] exNav (by decide)

/-- C10: chapter extraction is atomic on failure — whenever the embedded
`parseAdditionalPage` reports an error, the output buffer is unchanged
(the `err` check precedes the write loop). -/
theorem parseAdditionalPageW_atomic (buf : String) (cs : List HNode) (e : GoError)
    (h : (parseAdditionalPageW buf cs).2 = some e) :
    (parseAdditionalPageW buf cs).1 = buf := by
  by_cases he : (runFilter (elementChildren cs)).err = true
  · show (if (runFilter (elementChildren cs)).err then (buf, some GoError.parsingPage)
      else (buf ++ processList (runFilter (elementChildren cs)).acc, none)).1 = buf
    rw [if_pos he]
  · exfalso
    have h2 : (parseAdditionalPageW buf cs).2 = none := by
      show (if (runFilter (elementChildren cs)).err then (buf, some GoError.parsingPage)
        else (buf ++ processList (runFilter (elementChildren cs)).acc, none)).2 = none
      rw [if_neg he]
    rw [h2] at h
    exact Option.noConfusion h

/-- C10 witness: on a chapter body with a content child after the third
marker the extraction fails and the buffer keeps its previous contents. -/
theorem parseAdditionalPageW_atomic_witness :
    (parseAdditionalPageW "Accumulated" [exMarker, exMarker, exMarker, exPara]).1 =
      "Accumulated" :=
  parseAdditionalPageW_atomic "Accumulated" [exMarker, exMarker, exMarker, exPara]
    .parsingPage (by decide)

/-! ## Text-node conversion -/

theorem collapseGo_sublist (l : List Char) (prev : Bool) :
    List.Sublist (collapseGo l prev) l := by
  induction l generalizing prev with
  | nil => simp [collapseGo]
  | cons c rest ih =>
    by_cases hc : c = ' '
    · cases prev with
      | true =>
        have h : collapseGo (c :: rest) true = collapseGo rest true := by
          simp [collapseGo, hc]
        rw [h]
        exact (ih true).cons c
      | false =>
        have h : collapseGo (c :: rest) false = c :: collapseGo rest true := by
          simp [collapseGo, hc]
        rw [h]
        exact (ih true).cons₂ c
    · have h : collapseGo (c :: rest) prev = c :: collapseGo rest false := by
        simp [collapseGo, hc]
      rw [h]
      exact (ih false).cons₂ c

theorem collapseGo_head (l : List Char) : headIsSpace (collapseGo l true) = false := by
  induction l with
  | nil => rfl
  | cons c rest ih =>
    by_cases hc : c = ' '
    · simpa [collapseGo, hc] using ih
    · simp [collapseGo, hc, headIsSpace]

theorem noRun_cons_head (a : Char) (l : List Char) (h1 : headIsSpace l = false)
    (h2 : noRun l = true) : noRun (a :: l) = true := by
  cases l with
  | nil => rfl
  | cons b r =>
    have hb : (b == ' ') = false := by simpa [headIsSpace] using h1
    simp [noRun, hb, h2]

theorem noRun_cons_ne (a : Char) (l : List Char) (h1 : a ≠ ' ')
    (h2 : noRun l = true) : noRun (a :: l) = true := by
  cases l with
  | nil => rfl
  | cons b r => simp [noRun, h1, h2]

theorem noRun_tail (a : Char) (l : List Char) (h : noRun (a :: l) = true) :
    noRun l = true := by
  cases l with
  | nil => rfl
  | cons b r =>
    rw [noRun] at h
    exact (Bool.and_eq_true_iff.mp h).2

theorem collapseGo_noRun (l : List Char) (prev : Bool) :
    noRun (collapseGo l prev) = true := by
  induction l generalizing prev with
  | nil => rfl
  | cons c rest ih =>
    by_cases hc : c = ' '
    · cases prev with
      | true => simpa [collapseGo, hc] using ih true
      | false =>
        have h : collapseGo (c :: rest) false = c :: collapseGo rest true := by
          simp [collapseGo, hc]
        rw [h]
        exact noRun_cons_head c _ (collapseGo_head rest) (ih true)
    · have h : collapseGo (c :: rest) prev = c :: collapseGo rest false := by
        simp [collapseGo, hc]
      rw [h]
      exact noRun_cons_ne c _ hc (ih false)

theorem collapseGo_id (l : List Char) (prev : Bool) (h : noRun l = true)
    (hp : prev = true → headIsSpace l = false) : collapseGo l prev = l := by
  induction l generalizing prev with
  | nil => rfl
  | cons c rest ih =>
    by_cases hc : c = ' '
    · have hprev : prev = false := by
        cases prev with
        | false => rfl
        | true =>
          exfalso
          have := hp rfl
          rw [headIsSpace, hc] at this
          simp at this
      subst hprev
      have hstep : collapseGo (c :: rest) false = c :: collapseGo rest true := by
        simp [collapseGo, hc]
      rw [hstep]
      have hrest : headIsSpace rest = false := by
        cases rest with
        | nil => rfl
        | cons b r =>
          rw [noRun] at h
          have hb := (Bool.and_eq_true_iff.mp h).1
          rw [headIsSpace]
          subst hc
          simpa using hb
      rw [ih true (noRun_tail c rest h) (fun _ => hrest)]
    · have hstep : collapseGo (c :: rest) prev = c :: collapseGo rest false := by
        simp [collapseGo, hc]
      rw [hstep]
      rw [ih false (noRun_tail c rest h) (by intro hh; exact absurd hh (by simp))]

/-- C2: text-node conversion never leaves an embedded newline, never leaves
two consecutive spaces, is the identity on text with no newline and no run
of two or more spaces (in particular leading and trailing single spaces
survive untrimmed), and sends `"a  b   c"` to `"a b c"`
and `" a  b "` to `" a b "`. -/
theorem textTransform_spec (s : String) :
    ((textTransform s).data.all (fun c => !(c == '\n')) = true) ∧
    (noRun (textTransform s).data = true) ∧
    ((s.data.all (fun c => !(c == '\n')) = true) → noRun s.data = true →
      textTransform s = s) ∧
    textTransform "a  b   c" = "a b c" ∧
    textTransform " a  b " = " a b " := by
  refine ⟨?_, ?_, ?_, by decide, by decide⟩
  · rw [List.all_eq_true]
    intro x hx
    have hx2 : x ∈ s.data.filter (fun c => !(c == '\n')) :=
      (collapseGo_sublist _ false).subset hx
    exact (List.mem_filter.mp hx2).2
  · exact collapseGo_noRun _ false
  · intro hnl hnr
    have hfilter : s.data.filter (fun c => !(c == '\n')) = s.data :=
      List.filter_eq_self.mpr (List.all_eq_true.mp hnl)
    show String.mk (collapseGo (s.data.filter (fun c => !(c == '\n'))) false) = s
    rw [hfilter, collapseGo_id s.data false hnr (by intro hh; exact absurd hh (by simp))]

/-- C2 witness: a string of single spaces and no newlines is unchanged. -/
theorem textTransform_spec_witness : textTransform " a b " = " a b " :=
  (textTransform_spec " a b ").2.2.1 (by decide) (by decide)

/-! ## The "spaced" post-transform and paragraph conversion -/

theorem spaceGo_eq_intersperse (l : List Char) : spaceGo l = List.intersperse ' ' l := by
  induction l with
  | nil => rfl
  | cons c rest ih =>
    cases rest with
    | nil => rfl
    | cons d r =>
      rw [List.intersperse_cons_cons]
      rw [← ih]
      rfl

/-- C3: an element carrying the "spaced" class has its already-computed
tag-specific Markdown output re-rendered with exactly one space inserted
between every pair of adjacent characters of that formatted string
(`List.intersperse`: no leading or trailing space added). -/
theorem process_spaced (tag : Tag) (attrs : List (String × String))
    (children : List HNode) (h : hasClass attrs "spaced" = true) :
    (process (.elem tag attrs children)).data =
      List.intersperse ' ' (tagTransform tag attrs (processList children)).data := by
  show (let ret := tagTransform tag attrs (processList children);
    if hasClass attrs "spaced" then spaceOut ret else ret).data = _
  rw [if_pos h]
  show spaceGo (tagTransform tag attrs (processList children)).data = _
  exact spaceGo_eq_intersperse _

/-- C3 witness: the italic span wrapping "word" and a plain span wrapping
"ab", both letter-spaced. -/
theorem process_spaced_witness :
    (process (.elem .i [("class", "spaced")] [.text "word"])).data =
      List.intersperse ' '
        (tagTransform .i [("class", "spaced")] (processList [.text "word"])).data ∧
    process (.elem .i [("class", "spaced")] [.text "word"]) = "_ w o r d _" ∧
    process (.elem .span [("class", "spaced")] [.text "ab"]) = "a b" :=
  ⟨process_spaced .i [("class", "spaced")] [.text "word"] (by decide),
   by decide, by decide⟩

/-- C9 counterexample: a paragraph carrying both the "centerbig" and the
"spaced" classes does not convert to `"#### " + children + "\n\n"` — the
letter-spacing post-transform rewrites that output. -/
theorem process_p_centerbig_spaced_counterexample :
    process (.elem .p [("class", "centerbig spaced")] [.text "ab"]) ≠
      "#### " ++ processList [.text "ab"] ++ "\n\n" ∧
    process (.elem .p [("class", "centerbig spaced")] [.text "ab"]) =
      "# # # #   a b \n \n" := by
  constructor
  · decide
  · decide

/-- C9 (amended): a paragraph element that does not carry the "spaced"
class converts to `"#### " + children + "\n\n"` when it carries the
"centerbig" class and to `children + "\n\n"` otherwise. -/
theorem process_p_not_spaced (attrs : List (String × String))
    (children : List HNode) (h : hasClass attrs "spaced" = false) :
    process (.elem .p attrs children) =
      if hasClass attrs "centerbig" then "#### " ++ processList children ++ "\n\n"
      else processList children ++ "\n\n" := by
  show (let ret := tagTransform .p attrs (processList children);
    if hasClass attrs "spaced" then spaceOut ret else ret) = _
  rw [if_neg (by rw [h]; exact Bool.false_ne_true)]
  rfl

/-- C9 witness: a "centerbig" paragraph and a plain paragraph. -/
theorem process_p_not_spaced_witness :
    process (.elem .p [("class", "centerbig")] [.text "ab"]) =
      (if hasClass [("class", "centerbig")] "centerbig" then
        "#### " ++ processList [.text "ab"] ++ "\n\n"
      else processList [.text "ab"] ++ "\n\n") ∧
    process (.elem .p [] [.text "ab"]) =
      (if hasClass ([] : List (String × String)) "centerbig" then
        "#### " ++ processList [.text "ab"] ++ "\n\n"
      else processList [.text "ab"] ++ "\n\n") :=
  ⟨process_p_not_spaced [("class", "centerbig")] [.text "ab"] (by decide),
   process_p_not_spaced [] [.text "ab"] (by decide)⟩

/-! ## The title-page separator -/

/-- C4 counterexample: after a title-page chapter whose extracted region is
empty, the buffer holds `"\n----------------\n\n"` — the write is
`fmt.Fprintln`, which appends a newline to the separator, so the appended
text is not exactly `"\n----------------\n"`. -/
theorem fetchAndProcessChapter_sep_counterexample :
    fetchAndProcessChapter "" "https://projekt-gutenberg.org/goethe/faust/titlepage.html"
      [exMarker, exMarker] = .ok "\n----------------\n\n" ∧
    ("\n----------------\n\n" : String) ≠ "\n----------------\n" :=
  ⟨rfl, by decide⟩

/-- C4 (amended): for every chapter whose extraction succeeds, exactly
`"\n----------------\n" ++ "\n"` (the separator plus the newline appended
by the line-printing write) is appended after the chapter's content when
the chapter URL's final path segment is `titlepage.html`, and nothing is
appended otherwise. -/
theorem fetchAndProcessChapter_sep (buf url : String) (cs : List HNode)
    (h : (parseAdditionalPageW buf cs).2 = none) :
    fetchAndProcessChapter buf url cs =
      .ok (if pathBase url = "titlepage.html" then
        (parseAdditionalPageW buf cs).1 ++ "\n----------------\n" ++ "\n"
      else (parseAdditionalPageW buf cs).1) := by
  rcases hEq : parseAdditionalPageW buf cs with ⟨b, o⟩
  rw [hEq] at h
  cases o with
  | some e => exact absurd h (by simp)
  | none =>
    simp only [fetchAndProcessChapter, hEq]
    by_cases hb : pathBase url = "titlepage.html"
    · rw [if_pos hb, if_pos hb]
    · rw [if_neg hb, if_neg hb]

/-- C4 witness: a title-page chapter with non-empty content. -/
theorem fetchAndProcessChapter_sep_witness :
    fetchAndProcessChapter "Front. "
      "https://projekt-gutenberg.org/goethe/faust/titlepage.html"
      [exMarker, exPara, exMarker] =
      .ok (if pathBase "https://projekt-gutenberg.org/goethe/faust/titlepage.html" =
          "titlepage.html" then
        (parseAdditionalPageW "Front. " [exMarker, exPara, exMarker]).1 ++
          "\n----------------\n" ++ "\n"
      else (parseAdditionalPageW "Front. " [exMarker, exPara, exMarker]).1) :=
  fetchAndProcessChapter_sep "Front. "
    "https://projekt-gutenberg.org/goethe/faust/titlepage.html"
    [exMarker, exPara, exMarker] (by decide)

/-! ## Chapter-link extraction -/

theorem chapterLoop_ok (base : String) (lis : List HNode)
    (h : ∀ li ∈ lis, (findAHrefList (childrenOf li)).isSome = true) :
    chapterLoop base lis =
      .ok (lis.map (fun li => base ++ "/" ++ (findAHrefList (childrenOf li)).getD "")) := by
  induction lis with
  | nil => rfl
  | cons li rest ih =>
    obtain ⟨v, hv⟩ := Option.isSome_iff_exists.mp (h li (List.mem_cons_self li rest))
    have h2 : ∀ x ∈ rest, (findAHrefList (childrenOf x)).isSome = true :=
      fun x hx => h x (List.mem_cons_of_mem li hx)
    simp only [chapterLoop, hv, ih h2, List.map_cons, Option.getD_some]

/-- C6: given the index page's list items in document order, each holding a
descendant link element with an `href` attribute, the Index Parser returns
exactly one chapter URL per list item, in document order, each equal to
`baseURL + "/" + href` (the first such descendant's `href`); and on an
index page with no chapter list items it fails with `NoChaptersFound`. -/
theorem getChapters_spec (base : String) (lis : List HNode) :
    (lis ≠ [] → (∀ li ∈ lis, (findAHrefList (childrenOf li)).isSome = true) →
      getChapters base lis =
        .ok (lis.map (fun li => base ++ "/" ++ (findAHrefList (childrenOf li)).getD ""))) ∧
    getChapters base [] = .error .noChaptersFound := by
  constructor
  · intro hne h
    have hmap : lis.map (fun li => base ++ "/" ++ (findAHrefList (childrenOf li)).getD "") ≠
        [] := by
      simpa [List.map_eq_nil_iff] using hne
    simp only [getChapters, chapterLoop_ok base lis h, if_neg hmap]
  · rfl

/-- C6 witness: two list items — one with the link buried in a nested span
(the site's markup quirk), one with the link next to a text node. -/
theorem getChapters_spec_witness :
    getChapters "https://projekt-gutenberg.org/goethe/faust"
      [.elem .li [] [.elem .span [] [.elem .a [("href", "kapitel1.html")] []]],
       .elem .li [] [.text "Kapitel 2", .elem .a [("href", "kapitel2.html")] [.text "2"]]] =
      .ok ([.elem .li [] [.elem .span [] [.elem .a [("href", "kapitel1.html")] []]],
            .elem .li [] [.text "Kapitel 2",
              .elem .a [("href", "kapitel2.html")] [.text "2"]]].map
        (fun li => "https://projekt-gutenberg.org/goethe/faust" ++ "/" ++
          (findAHrefList (childrenOf li)).getD "")) :=
  (getChapters_spec "https://projekt-gutenberg.org/goethe/faust" _).1
    (List.cons_ne_nil _ _) (by decide)

/-! ## URL normalisation -/

theorem getBaseUrl_ok_eval (u : GoURL)
    (hs : u.scheme = "http" ∨ u.scheme = "https")
    (hh : u.host = "projekt-gutenberg.org" ∨ u.host = "www.projekt-gutenberg.org") :
    getBaseUrl (.ok u) =
      (if (splitChar '/' (trimC u.path.data)).length < 2 then .error .invalidURL
       else .ok (u.scheme ++ "://projekt-gutenberg.org/" ++
         String.mk (joinSlash ((splitChar '/' (trimC u.path.data)).take 2)))) := by
  have hsb : (u.scheme == "http" || u.scheme == "https") = true := by
    rcases hs with h | h <;> simp [h]
  have hhb : (u.host == "projekt-gutenberg.org" ||
      u.host == "www.projekt-gutenberg.org") = true := by
    rcases hh with h | h <;> simp [h]
  simp [getBaseUrl, hsb, hhb]

/-- C7 counterexample: when the raw URL cannot be parsed, `getBaseUrl`
returns the parse error itself — a failure, but not `InvalidURL`. -/
theorem getBaseUrl_parse_error_counterexample :
    getBaseUrl (.error "net/url: invalid control character in URL") =
      .error (.other "net/url: invalid control character in URL") ∧
    GoError.other "net/url: invalid control character in URL" ≠ GoError.invalidURL :=
  ⟨rfl, by decide⟩

/-- C7 (amended): on a successfully parsed URL, the Normalizer fails with
`InvalidURL` exactly when the scheme is not `http`/`https`, or the host is
neither the fixed site host nor its `www.` form, or fewer than 2 path
segments remain after trimming outer slashes and splitting on `/`; when the
raw URL cannot be parsed, the parse error itself is returned instead. -/
theorem getBaseUrl_invalidURL_iff :
    (∀ u : GoURL,
      getBaseUrl (.ok u) = .error .invalidURL ↔
        (¬(u.scheme = "http" ∨ u.scheme = "https") ∨
         ¬(u.host = "projekt-gutenberg.org" ∨ u.host = "www.projekt-gutenberg.org") ∨
         (splitChar '/' (trimC u.path.data)).length < 2)) ∧
    (∀ msg : String, getBaseUrl (.error msg) = .error (.other msg)) := by
  constructor
  · intro u
    by_cases hs : u.scheme = "http" ∨ u.scheme = "https"
    · by_cases hh : u.host = "projekt-gutenberg.org" ∨
          u.host = "www.projekt-gutenberg.org"
      · rw [getBaseUrl_ok_eval u hs hh]
        by_cases hl : (splitChar '/' (trimC u.path.data)).length < 2
        · simp [hl]
        · simp [hl, hs, hh]
      · have hhb : (u.host == "projekt-gutenberg.org" ||
            u.host == "www.projekt-gutenberg.org") = false := by
          have h2 := not_or.mp hh
          simp [h2.1, h2.2]
        have hsb : (u.scheme == "http" || u.scheme == "https") = true := by
          rcases hs with h | h <;> simp [h]
        simp [getBaseUrl, hsb, hhb, hh]
    · have hsb : (u.scheme == "http" || u.scheme == "https") = false := by
        have h2 := not_or.mp hs
        simp [h2.1, h2.2]
      simp [getBaseUrl, hsb, hs]
  · intro msg
    rfl

theorem dropWhile_head_false {α : Type} (p : α → Bool) (l : List α) (c : α) (t : List α)
    (h : l.dropWhile p = c :: t) : p c = false := by
  induction l with
  | nil => simp at h
  | cons x xs ih =>
    rw [List.dropWhile_cons] at h
    by_cases hx : p x = true
    · rw [if_pos hx] at h
      exact ih h
    · rw [if_neg hx] at h
      injection h with h1 h2
      subst h1
      exact Bool.eq_false_iff.mpr hx

theorem splitChar_cons_of_eq (sep : Char) (rest : List Char) :
    splitChar sep (sep :: rest) = [] :: splitChar sep rest := by
  simp [splitChar]

theorem splitChar_cons_of_ne (sep c : Char) (rest : List Char) (hc : ¬(c = sep))
    (s : List Char) (ss : List (List Char)) (hsc : splitChar sep rest = s :: ss) :
    splitChar sep (c :: rest) = (c :: s) :: ss := by
  simp [splitChar, hc, hsc]

theorem splitChar_ne_nil (sep : Char) (l : List Char) : splitChar sep l ≠ [] := by
  induction l with
  | nil => simp [splitChar]
  | cons c rest ih =>
    by_cases hc : c = sep
    · subst hc
      rw [splitChar_cons_of_eq]
      exact List.cons_ne_nil _ _
    · rcases hsc : splitChar sep rest with _ | ⟨s, ss⟩
      · exact absurd hsc ih
      · rw [splitChar_cons_of_ne sep c rest hc s ss hsc]
        exact List.cons_ne_nil _ _

theorem splitChar_mem_not_sep (sep : Char) (l : List Char) (seg : List Char)
    (hm : seg ∈ splitChar sep l) : sep ∉ seg := by
  induction l generalizing seg with
  | nil =>
    simp [splitChar] at hm
    subst hm
    simp
  | cons c rest ih =>
    by_cases hc : c = sep
    · subst hc
      rw [splitChar_cons_of_eq] at hm
      rcases List.mem_cons.mp hm with rfl | hmem
      · simp
      · exact ih seg hmem
    · rcases hsc : splitChar sep rest with _ | ⟨s, ss⟩
      · exact absurd hsc (splitChar_ne_nil sep rest)
      · rw [splitChar_cons_of_ne sep c rest hc s ss hsc] at hm
        rcases List.mem_cons.mp hm with rfl | hmem
        · intro hin
          rcases List.mem_cons.mp hin with h1 | hin2
          · exact hc h1.symm
          · exact ih s (by rw [hsc]; exact List.mem_cons_self s ss) hin2
        · exact ih seg (by rw [hsc]; exact List.mem_cons_of_mem s hmem)

theorem splitChar_of_not_mem (sep : Char) (l : List Char) (h : sep ∉ l) :
    splitChar sep l = [l] := by
  induction l with
  | nil => rfl
  | cons c rest ih =>
    have hc : ¬(c = sep) := fun he => h (by rw [he]; exact List.mem_cons_self _ _)
    have hrest : sep ∉ rest := fun hmem => h (List.mem_cons_of_mem c hmem)
    exact splitChar_cons_of_ne sep c rest hc rest [] (ih hrest)

theorem splitChar_append (sep : Char) (s0 t : List Char) (h : sep ∉ s0) :
    splitChar sep (s0 ++ sep :: t) = s0 :: splitChar sep t := by
  induction s0 with
  | nil => simpa using splitChar_cons_of_eq sep t
  | cons c r ih =>
    have hc : ¬(c = sep) := fun he => h (by rw [he]; exact List.mem_cons_self _ _)
    have hr : sep ∉ r := fun hmem => h (List.mem_cons_of_mem c hmem)
    exact splitChar_cons_of_ne sep c (r ++ sep :: t) hc r (splitChar sep t) (ih hr)

theorem splitChar_head_cons (sep c : Char) (t : List Char) (hc : ¬(c = sep)) :
    ∃ s ss, splitChar sep (c :: t) = (c :: s) :: ss := by
  rcases hsc : splitChar sep t with _ | ⟨s, ss⟩
  · exact absurd hsc (splitChar_ne_nil sep t)
  · exact ⟨s, ss, splitChar_cons_of_ne sep c t hc s ss hsc⟩

theorem trimC_head_ne (l : List Char) (c : Char) (t : List Char)
    (h : trimC l = c :: t) : ¬(c = '/') := by
  have hpre : trimC l <+: l.dropWhile (fun c => c = '/') :=
    List.rdropWhile_prefix _ _
  obtain ⟨r, hr⟩ := hpre
  rw [h] at hr
  have hhead := dropWhile_head_false (fun c => decide (c = '/'))
    l c (t ++ r) (by rw [← hr]; rfl)
  simpa using hhead

theorem trimC_wrap (a b : List Char) (ha : a ≠ []) (hasep : '/' ∉ a)
    (hb : b ≠ []) (hbsep : '/' ∉ b) :
    trimC ('/' :: (a ++ '/' :: b)) = a ++ '/' :: b := by
  obtain ⟨c, a', rfl⟩ : ∃ c a', a = c :: a' := by
    cases a with
    | nil => exact absurd rfl ha
    | cons c a' => exact ⟨c, a', rfl⟩
  have hc : ¬(c = '/') := fun he => hasep (by rw [← he] at *; exact List.mem_cons_self _ _)
  have h1 : ('/' :: ((c :: a') ++ '/' :: b)).dropWhile (fun x => x = '/') =
      (c :: a') ++ '/' :: b := by
    rw [List.dropWhile_cons, if_pos (by simp), List.cons_append, List.dropWhile_cons,
      if_neg (by simpa using hc), ← List.cons_append]
  obtain ⟨b2, d, rfl⟩ : ∃ b2 d, b = b2 ++ [d] := by
    rcases List.eq_nil_or_concat b with h | ⟨b2, d, h⟩
    · exact absurd h hb
    · rw [List.concat_eq_append] at h
      exact ⟨b2, d, h⟩
  have hd : ¬(d = '/') := fun he =>
    hbsep (by rw [← he] at *; exact List.mem_append_right b2 (List.mem_cons_self _ _))
  show List.rdropWhile (fun x => x = '/')
    (('/' :: ((c :: a') ++ '/' :: (b2 ++ [d]))).dropWhile (fun x => x = '/')) = _
  rw [h1, show (c :: a') ++ '/' :: (b2 ++ [d]) = ((c :: a') ++ '/' :: b2) ++ [d] by simp,
    List.rdropWhile_concat_neg (fun x => x = '/') ((c :: a') ++ '/' :: b2) d
      (by simpa using hd)]

theorem joinSlash_pair (a b : List Char) : joinSlash [a, b] = a ++ '/' :: b := by
  simp [joinSlash, List.intersperse]

/-- C8: on an accepted URL the Normalizer keeps only the first two path
segments (any deeper path is discarded, and the query and fragment
components are never consulted): the result is
`<scheme>://projekt-gutenberg.org/<seg0>/<seg1>`, and it coincides with the
result of normalizing the two-segment URL of the same author/book pair
(same scheme, path `/<seg0>/<seg1>`, empty query and fragment). -/
theorem getBaseUrl_firstTwoSegments (u : GoURL) (a b : List Char)
    (rest : List (List Char))
    (hs : u.scheme = "http" ∨ u.scheme = "https")
    (hh : u.host = "projekt-gutenberg.org" ∨ u.host = "www.projekt-gutenberg.org")
    (hsplit : splitChar '/' (trimC u.path.data) = a :: b :: rest)
    (hb : b ≠ []) :
    getBaseUrl (.ok u) =
      .ok (u.scheme ++ "://projekt-gutenberg.org/" ++ String.mk (a ++ '/' :: b)) ∧
    getBaseUrl (.ok u) =
      getBaseUrl (.ok ⟨u.scheme, u.host, String.mk ('/' :: (a ++ '/' :: b)), "", ""⟩) := by
  have hasep : '/' ∉ a :=
    splitChar_mem_not_sep '/' (trimC u.path.data) a
      (by rw [hsplit]; exact List.mem_cons_self _ _)
  have hbsep : '/' ∉ b :=
    splitChar_mem_not_sep '/' (trimC u.path.data) b
      (by rw [hsplit]; exact List.mem_cons_of_mem _ (List.mem_cons_self _ _))
  have ha : a ≠ [] := by
    rcases htr : trimC u.path.data with _ | ⟨c, t⟩
    · rw [htr] at hsplit
      simp [splitChar] at hsplit
    · have hc := trimC_head_ne _ _ _ htr
      obtain ⟨s, ss, hshape⟩ := splitChar_head_cons '/' c t hc
      rw [htr, hshape] at hsplit
      injection hsplit with h1 _
      rw [← h1]
      exact List.cons_ne_nil _ _
  have hfirst : getBaseUrl (.ok u) =
      .ok (u.scheme ++ "://projekt-gutenberg.org/" ++ String.mk (a ++ '/' :: b)) := by
    rw [getBaseUrl_ok_eval u hs hh, hsplit]
    rw [if_neg (by simp)]
    have htake : (a :: b :: rest).take 2 = [a, b] := rfl
    rw [htake, joinSlash_pair]
  refine ⟨hfirst, ?_⟩
  rw [hfirst]
  have hpath2 : (String.mk ('/' :: (a ++ '/' :: b))).data = '/' :: (a ++ '/' :: b) := rfl
  rw [getBaseUrl_ok_eval ⟨u.scheme, u.host, String.mk ('/' :: (a ++ '/' :: b)), "", ""⟩
    hs hh]
  show _ = (if (splitChar '/' (trimC ('/' :: (a ++ '/' :: b)))).length < 2 then _ else _)
  rw [trimC_wrap a b ha hasep hb hbsep, splitChar_append '/' a b hasep,
    splitChar_of_not_mem '/' b hbsep]
  rw [if_neg (by simp)]
  have htake2 : ([a, b] : List (List Char)).take 2 = [a, b] := rfl
  rw [htake2, joinSlash_pair]

/-- C8 witness: a chapter-level URL with an extra path segment, a query and
a fragment normalizes like the bare author/book URL. -/
theorem getBaseUrl_firstTwoSegments_witness :
    getBaseUrl (.ok ⟨"https", "www.projekt-gutenberg.org",
        "/goethe/faust/kapitel1.html", "print=1", "top"⟩) =
      .ok ("https" ++ "://projekt-gutenberg.org/" ++
        String.mk ("goethe".data ++ '/' :: "faust".data)) ∧
    getBaseUrl (.ok ⟨"https", "www.projekt-gutenberg.org",
        "/goethe/faust/kapitel1.html", "print=1", "top"⟩) =
      getBaseUrl (.ok ⟨"https", "www.projekt-gutenberg.org",
        String.mk ('/' :: ("goethe".data ++ '/' :: "faust".data)), "", ""⟩) :=
  getBaseUrl_firstTwoSegments
    ⟨"https", "www.projekt-gutenberg.org", "/goethe/faust/kapitel1.html",
      "print=1", "top"⟩
    "goethe".data "faust".data ["kapitel1.html".data]
    (by decide) (by decide) (by decide) (by decide)
